import Mathlib

/-!
Verification of the papyrus code-completion core
(`src/papyrus/src/complete/code.rs`).

Embedding conventions:
* Rust `String`/`&str` values and raw file bytes are modelled as `List Nat`
  (byte sequences); byte offsets are `Nat`.
* Machine-integer `usize` arithmetic that can underflow, and `&str` range
  slicing that can be out of bounds or off a character boundary, are modelled
  as `Option`: `none` is a panic (debug assertions included).
* The racer engine, the file system and the session cache are external
  collaborators; they enter as explicit function parameters.
-/

/-- Rust `std::ops::Range<usize>` as used for the split.  The field `stop`
models the Rust field `end` (a Lean keyword). -/
structure SplitRange where
  start : Nat
  stop : Nat
deriving DecidableEq

/-- `CodeCompleter` from code.rs: the last known good source and the byte
range where live input is spliced in. -/
structure CodeCompleter where
  last_code : List Nat
  split : SplitRange
deriving DecidableEq

/-- Rust `str::is_char_boundary` on a byte sequence: index 0 is always a
boundary, an in-range index is a boundary when the byte there is not a UTF-8
continuation byte, and the one-past-the-end index is a boundary. -/
def is_char_boundary (b : List Nat) (i : Nat) : Bool :=
  if i = 0 then true
  else
    match b[i]? with
    | some x => decide (x < 0x80) || decide (0xC0 ≤ x)
    | none => i == b.length

/-- Rust slicing `&s[..i]`: defined only when `i` is a char boundary,
otherwise a panic (`none`). -/
def strSliceTo (b : List Nat) (i : Nat) : Option (List Nat) :=
  if is_char_boundary b i then some (b.take i) else none

/-- Rust slicing `&s[i..]`: defined only when `i` is a char boundary,
otherwise a panic (`none`). -/
def strSliceFrom (b : List Nat) (i : Nat) : Option (List Nat) :=
  if is_char_boundary b i then some (b.drop i) else none

/-- `CodeCompleter::inject` from code.rs, lines 51-64.  Faithful to the
source: first the capacity `last_code.len() + split.start - split.end +
injection.len()` (underflow in the subtraction is a panic), then the three
`push_str` calls on the two slices of `last_code` and the injection, then the
`debug_assert_eq!(s.len(), cap)`, and finally the cursor position
`split.start + injection.len()`. -/
def inject (c : CodeCompleter) (injection : List Nat) : Option (List Nat × Nat) :=
  if c.last_code.length + c.split.start < c.split.stop then
    none
  else
    let cap := c.last_code.length + c.split.start - c.split.stop + injection.length
    match strSliceTo c.last_code c.split.start, strSliceFrom c.last_code c.split.stop with
    | some pre, some suf =>
      let s := pre ++ injection ++ suf
      if s.length = cap then
        some (s, c.split.start + injection.length)
      else
        none
    | _, _ => none

/-- Modelled from the spec: the source registry consumed by
`CodeCompleter::build` (the session `ReplData` and
`pfh::code::construct_source_code` live outside the sources provided).  Per
the spec, the registry maps a logical file identifier to that file
accumulated source text together with its split range. -/
def Registry : Type := List (String × (List Nat × SplitRange))

/-- `CodeCompleter::build` from code.rs, lines 20-27, with the registry
lookup modelled from the spec: look up the current file accumulated text and
split range; if the current file has no entry, use an empty base text and a
split of `0..0` rather than failing (code.rs line 24 supplies the `0..0`
fallback via `unwrap_or`). -/
def build (registry : Registry) (current : String) : CodeCompleter :=
  match List.lookup current registry with
  | some (text, r) => { last_code := text, split := r }
  | none => { last_code := [], split := { start := 0, stop := 0 } }

/-- `usize::MAX`, with `usize` modelled as 64 bits. -/
def USIZE_MAX : Nat := 2 ^ 64 - 1

/-- `CodeCompleter::complete` from code.rs, lines 35-47.  The racer session
is abstracted as `engine`, a function from the cached contents and cursor
position to the ranked match sequence (matches are opaque, type `M`).  As in
the source: `limit.unwrap_or(usize::MAX)`, then `inject` (whose panics
propagate), then `take(limit)` on the engine results. -/
def complete {M : Type} (c : CodeCompleter) (engine : List Nat → Nat → List M)
    (injection : List Nat) (limit : Option Nat) : Option (List M) :=
  let lim := limit.getD USIZE_MAX
  match inject c injection with
  | none => none
  | some (contents, pos) => some ((engine contents pos).take lim)

/-- Modelled from the spec: `word_break_start` (it lives in
`complete/mod.rs`, outside the sources provided).  Spec words: scan backward
from the end of the line; stop at the first occurrence of any delimiter or
the start of the line; return the offset just past the delimiter (or 0). -/
def word_break_start (line : List Nat) (delims : List Nat) : Nat :=
  match line.reverse.findIdx? (fun b => delims.contains b) with
  | some i => line.length - i
  | none => 0

/-- `CodeCompleter::word_break` from code.rs, lines 30-32: delimiters are
space, colon and period (bytes 32, 58, 46). -/
def word_break (line : List Nat) : Nat :=
  word_break_start line [32, 58, 46]

/-- The fixed virtual entry-point name, `LIBRS` in code.rs. -/
def LIBRS : String := "lib.rs"

/-- `b` is in the half-open byte range `[lo, hi)`. -/
def inRange (lo hi b : Nat) : Bool := decide (lo ≤ b) && decide (b < hi)

/-- A UTF-8 continuation byte: `0x80 ≤ b < 0xC0`. -/
def isContByte (b : Nat) : Bool := inRange 0x80 0xC0 b

/-- UTF-8 validity of a byte sequence, as checked by Rust
`str::from_utf8` / `String::from_utf8`: ASCII, then the two, three and four
byte forms with the overlong and surrogate exclusions
(lead bytes C2-DF, E0 A0-BF, E1-EC 80-BF, ED 80-9F, EE-EF 80-BF,
F0 90-BF, F1-F3 80-BF, F4 80-8F). -/
def validUtf8 : List Nat → Bool
  | [] => true
  | b :: l =>
    if b < 0x80 then validUtf8 l
    else if b < 0xC2 then false
    else if b < 0xE0 then
      match l with
      | c1 :: l2 => isContByte c1 && validUtf8 l2
      | [] => false
    else if b < 0xF0 then
      match l with
      | c1 :: c2 :: l3 =>
        (if b = 0xE0 then inRange 0xA0 0xC0 c1
         else if b = 0xED then inRange 0x80 0xA0 c1
         else isContByte c1) && isContByte c2 && validUtf8 l3
      | _ => false
    else if b < 0xF5 then
      match l with
      | c1 :: c2 :: c3 :: l4 =>
        (if b = 0xF0 then inRange 0x90 0xC0 c1
         else if b = 0xF4 then inRange 0x80 0x90 c1
         else isContByte c1) && isContByte c2 && isContByte c3 && validUtf8 l4
      | _ => false
    else false

/-- The 3-byte UTF-8 byte-order mark. -/
def BOM : List Nat := [0xEF, 0xBB, 0xBF]

/-- Result of `PapyrusCodeFileLoader::load_file`.  The source returns
`io::Result<String>`; both failure paths are `io::Error`, but they arise from
distinct conditions which the model keeps apart: `ioErr` from the
`File::open` / `read_to_end` operators, `decodeErr` from the UTF-8 decoding
(wrapped into `io::ErrorKind::Other` by the source). -/
inductive LoadResult where
  | ok (text : List Nat)
  | ioErr
  | decodeErr
deriving DecidableEq

/-- `PapyrusCodeFileLoader::load_file` from code.rs, lines 84-106.  The file
system is abstracted as `fs`: `fs path = some bytes` when the file can be
opened and read in full, `none` when an I/O error occurs.  Faithful to the
source: the `LIBRS` special case first, then the BOM guard
`rawbytes.len() > 2 && rawbytes[0..3] == [0xEF, 0xBB, 0xBF]`, then UTF-8
decoding of the remainder (decoding a valid byte sequence yields the same
bytes). -/
def load_file (fs : String → Option (List Nat)) (path : String) : LoadResult :=
  if path = LIBRS then
    LoadResult.ok []
  else
    match fs path with
    | none => LoadResult.ioErr
    | some rawbytes =>
      if rawbytes.length > 2 && rawbytes.take 3 == BOM then
        if validUtf8 (rawbytes.drop 3) then LoadResult.ok (rawbytes.drop 3)
        else LoadResult.decodeErr
      else
        if validUtf8 rawbytes then LoadResult.ok rawbytes
        else LoadResult.decodeErr

/-- Spec-side phrasing of the BOM rule, for comparison with the source in
the C5 theorem: drop the first three bytes exactly when they are the BOM. -/
def stripBOM (raw : List Nat) : List Nat :=
  if raw.take 3 = BOM then raw.drop 3 else raw

/-! ## Theorems -/

/-- On a valid split (within bounds, on char boundaries) `inject` succeeds
and returns the prefix-fragment-suffix concatenation with cursor
`s + len F`.  Shared helper for several theorems below. -/
theorem inject_valid_eq (B F : List Nat) (s e : Nat) (hse : s ≤ e)
    (hel : e ≤ B.length) (hs : is_char_boundary B s = true)
    (he : is_char_boundary B e = true) :
    inject ⟨B, ⟨s, e⟩⟩ F = some (B.take s ++ F ++ B.drop e, s + F.length) := by
  have hnu : ¬ B.length + s < e := by omega
  have hsl : s ≤ B.length := le_trans hse hel
  simp only [inject, strSliceTo, strSliceFrom, hs, if_true, he, if_neg hnu]
  rw [if_pos]
  simp only [List.length_append, List.length_take, List.length_drop]
  omega

/-- C1: for every base text B, split range [s,e] with 0 <= s <= e <= len(B)
on character boundaries, and fragment F, inject F returns a composed text
equal to the concatenation of B[0..s], F verbatim, and B[e..len(B)]. -/
theorem inject_returns_concat (B F : List Nat) (s e : Nat) (hse : s ≤ e)
    (hel : e ≤ B.length) (hs : is_char_boundary B s = true)
    (he : is_char_boundary B e = true) :
    inject ⟨B, ⟨s, e⟩⟩ F = some (B.take s ++ F ++ B.drop e, s + F.length) :=
  inject_valid_eq B F s e hse hel hs he

/-- C1 witness: the "Hello morld" example, split [5,7), fragment ", w". -/
theorem inject_returns_concat_witness :
    inject ⟨[72, 101, 108, 108, 111, 32, 109, 111, 114, 108, 100], ⟨5, 7⟩⟩ [44, 32, 119] =
      some ([72, 101, 108, 108, 111, 44, 32, 119, 111, 114, 108, 100], 8) := by
  have h := inject_returns_concat [72, 101, 108, 108, 111, 32, 109, 111, 114, 108, 100]
    [44, 32, 119] 5 7 (by decide) (by decide) (by decide) (by decide)
  simpa using h

/-- C2: whenever inject F returns a composed text, its length equals
len(B) + len(F) - (e - s). -/
theorem inject_length_invariant (B F : List Nat) (s e : Nat) (hse : s ≤ e)
    (hel : e ≤ B.length) (t : List Nat) (p : Nat)
    (h : inject ⟨B, ⟨s, e⟩⟩ F = some (t, p)) :
    t.length = B.length + F.length - (e - s) := by
  simp only [inject] at h
  split at h
  · exact absurd h (by simp)
  · split at h
    · rename_i pre suf hpre hsuf
      split at h
      · rename_i hlen
        obtain ⟨h1, h2⟩ := Prod.mk.injEq .. ▸ Option.some.inj h
        subst h1
        omega
      · exact absurd h (by simp)
    · exact absurd h (by simp)

/-- C2 witness: the "Hello" pure-insertion example, split [5,5),
fragment ", world". -/
theorem inject_length_invariant_witness :
    ([72, 101, 108, 108, 111, 44, 32, 119, 111, 114, 108, 100] : List Nat).length =
      ([72, 101, 108, 108, 111] : List Nat).length +
        ([44, 32, 119, 111, 114, 108, 100] : List Nat).length - (5 - 5) :=
  inject_length_invariant [72, 101, 108, 108, 111] [44, 32, 119, 111, 114, 108, 100] 5 5
    (by decide) (by decide) [72, 101, 108, 108, 111, 44, 32, 119, 111, 114, 108, 100] 12
    (by decide)

/-- C3: whenever inject F returns, the cursor position equals s + len(F),
independent of e and of the suffix length. -/
theorem inject_cursor_invariant (B F : List Nat) (s e : Nat) (hse : s ≤ e)
    (hel : e ≤ B.length) (t : List Nat) (p : Nat)
    (h : inject ⟨B, ⟨s, e⟩⟩ F = some (t, p)) :
    p = s + F.length := by
  simp only [inject] at h
  split at h
  · exact absurd h (by simp)
  · split at h
    · split at h
      · obtain ⟨h1, h2⟩ := Prod.mk.injEq .. ▸ Option.some.inj h
        exact h2.symm
      · exact absurd h (by simp)
    · exact absurd h (by simp)

/-- C3 witness: the ", world" insert-at-start example, split [0,0),
fragment "Hello". -/
theorem inject_cursor_invariant_witness :
    (5 : Nat) = 0 + ([72, 101, 108, 108, 111] : List Nat).length :=
  inject_cursor_invariant [44, 32, 119, 111, 114, 108, 100] [72, 101, 108, 108, 111] 0 0
    (by decide) (by decide) [72, 101, 108, 108, 111, 44, 32, 119, 111, 114, 108, 100] 5
    (by decide)

/-- C9: under the precondition s <= e <= len(B) with both bounds on
character boundaries, inject never panics (both slices are in bounds and the
capacity subtraction does not underflow). -/
theorem inject_no_panic (B F : List Nat) (s e : Nat) (hse : s ≤ e)
    (hel : e ≤ B.length) (hs : is_char_boundary B s = true)
    (he : is_char_boundary B e = true) :
    (inject ⟨B, ⟨s, e⟩⟩ F).isSome = true ∧ e ≤ B.length + s := by
  refine ⟨?_, by omega⟩
  rw [inject_valid_eq B F s e hse hel hs he]
  rfl

/-- C9 witness: the "Hello, worm" net-growth example, split [10,11),
fragment "ld". -/
theorem inject_no_panic_witness :
    (inject ⟨[72, 101, 108, 108, 111, 44, 32, 119, 111, 114, 109], ⟨10, 11⟩⟩
        [108, 100]).isSome = true ∧
      11 ≤ ([72, 101, 108, 108, 111, 44, 32, 119, 111, 114, 109] : List Nat).length + 10 :=
  inject_no_panic [72, 101, 108, 108, 111, 44, 32, 119, 111, 114, 109] [108, 100] 10 11
    (by decide) (by decide) (by decide) (by decide)

/-- C4: if the current file identifier has no entry in the registry, the
completer built by build behaves on every inject F as if the base text were
empty and the split were [0,0): inject F returns exactly (F, len F). -/
theorem build_missing_degrades (registry : Registry) (current : String)
    (h : List.lookup current registry = none) (F : List Nat) :
    inject (build registry current) F = some (F, F.length) := by
  have hb : build registry current = ⟨[], ⟨0, 0⟩⟩ := by
    simp only [build, h]
  rw [hb]
  simpa using inject_valid_eq [] F 0 0 (Nat.le_refl 0) (Nat.le_refl 0) (by decide) (by decide)

/-- C4 witness: a registry holding only "a.rs" while the current file is
"main.rs". -/
theorem build_missing_degrades_witness :
    inject (build [("a.rs", ([1, 2, 3], ⟨0, 2⟩))] "main.rs") [9, 8] = some ([9, 8], 2) := by
  simpa using build_missing_degrades [("a.rs", ([1, 2, 3], ⟨0, 2⟩))] "main.rs" (by decide) [9, 8]

/-- C5: for a path other than the virtual entry point, load_file is an I/O
error exactly when the file cannot be read, and otherwise decodes the bytes
with a leading 3-byte BOM stripped when present (spec-side `stripBOM`),
failing with a decoding error exactly when the post-strip bytes are not
valid UTF-8. -/
theorem load_file_non_virtual (fs : String → Option (List Nat)) (path : String)
    (h : path ≠ LIBRS) :
    (fs path = none → load_file fs path = LoadResult.ioErr) ∧
    (∀ raw, fs path = some raw →
      load_file fs path =
        if validUtf8 (stripBOM raw) then LoadResult.ok (stripBOM raw)
        else LoadResult.decodeErr) := by
  constructor
  · intro hio
    simp [load_file, if_neg h, hio]
  · intro raw hraw
    simp only [load_file, if_neg h, hraw]
    by_cases hb : raw.take 3 = BOM
    · have h3 : 3 ≤ raw.length := by
        have hlen := congrArg List.length hb
        simp only [List.length_take, BOM, List.length_cons, List.length_nil] at hlen
        omega
      have hg : (raw.length > 2 && (raw.take 3 == BOM)) = true := by
        simp only [Bool.and_eq_true, beq_iff_eq, hb, decide_eq_true_eq, and_true]
        omega
      rw [hg]
      simp [stripBOM, hb]
    · have hg : (raw.length > 2 && (raw.take 3 == BOM)) = false := by
        simp [hb]
      rw [hg]
      simp [stripBOM, hb]

/-- C5 witness: an unreadable file gives an I/O error; a readable plain
ASCII file decodes as-is. -/
theorem load_file_non_virtual_witness :
    load_file (fun w => none) "a.rs" = LoadResult.ioErr ∧
    load_file (fun w => some [104, 105]) "a.rs" = LoadResult.ok [104, 105] := by
  refine ⟨(load_file_non_virtual (fun w => none) "a.rs" (by decide)).1 rfl, ?_⟩
  have h := (load_file_non_virtual (fun w => some [104, 105]) "a.rs" (by decide)).2
    [104, 105] rfl
  rw [h]
  decide

/-- C6: resolving the fixed virtual entry-point name always returns empty
text and succeeds, for every state of the file system (so without any
storage access, even if a file of that name exists on disk). -/
theorem load_file_virtual_isolated (fs : String → Option (List Nat)) :
    load_file fs LIBRS = LoadResult.ok [] := by
  simp [load_file]

/-- C10: a file that is exactly the 3 BOM bytes decodes to empty text,
while a file of fewer than 3 bytes is decoded as-is with no stripping. -/
theorem load_file_bom_edge (fs : String → Option (List Nat)) (path : String)
    (h : path ≠ LIBRS) :
    (fs path = some BOM → load_file fs path = LoadResult.ok []) ∧
    (∀ raw, raw.length < 3 → fs path = some raw →
      load_file fs path =
        if validUtf8 raw then LoadResult.ok raw else LoadResult.decodeErr) := by
  constructor
  · intro hb
    simp only [load_file, if_neg h, hb]
    decide
  · intro raw h3 hraw
    have hg : (raw.length > 2 && (raw.take 3 == BOM)) = false := by
      have : ¬ raw.length > 2 := by omega
      simp [this]
    simp only [load_file, if_neg h, hraw, hg]
    rfl

/-- C10 witness: a BOM-only file decodes to empty text; the 2-byte proper
BOM prefix EF BB is not stripped and fails UTF-8 decoding as-is. -/
theorem load_file_bom_edge_witness :
    load_file (fun w => some [0xEF, 0xBB, 0xBF]) "b.rs" = LoadResult.ok [] ∧
    load_file (fun w => some [0xEF, 0xBB]) "c.rs" = LoadResult.decodeErr := by
  constructor
  · exact (load_file_bom_edge (fun w => some [0xEF, 0xBB, 0xBF]) "b.rs" (by decide)).1 rfl
  · have h := (load_file_bom_edge (fun w => some [0xEF, 0xBB]) "c.rs" (by decide)).2
      [0xEF, 0xBB] (by decide) rfl
    rw [h]
    decide

/-- C7: whenever inject succeeds, complete with limit some N returns exactly
the first N engine matches (at most N of them, a prefix of the engine
sequence in engine order), and complete with limit none returns all matches
the engine produces, in order (the engine sequence being shorter than
usize::MAX, as any real match vector is). -/
theorem complete_limit_behavior {M : Type} (c : CodeCompleter)
    (engine : List Nat → Nat → List M) (F contents : List Nat) (pos : Nat)
    (h : inject c F = some (contents, pos)) :
    (∀ N, complete c engine F (some N) = some ((engine contents pos).take N) ∧
      ((engine contents pos).take N).length ≤ N ∧
      (engine contents pos).take N ++ (engine contents pos).drop N =
        engine contents pos) ∧
    ((engine contents pos).length ≤ USIZE_MAX →
      complete c engine F none = some (engine contents pos)) := by
  constructor
  · intro N
    refine ⟨by simp [complete, h], ?_, List.take_append_drop N _⟩
    simp [List.length_take]
  · intro hlen
    simp [complete, h, List.take_of_length_le hlen]

/-- C7 witness: a three-match engine truncated to two by limit some 2 and
returned whole by limit none. -/
theorem complete_limit_behavior_witness :
    complete ⟨[], ⟨0, 0⟩⟩ (fun t q => [10, 20, 30]) [] (some 2) = some [10, 20] ∧
    complete ⟨[], ⟨0, 0⟩⟩ (fun t q => [10, 20, 30]) [] none = some [10, 20, 30] := by
  have h := complete_limit_behavior (M := Nat) ⟨[], ⟨0, 0⟩⟩ (fun t q => [10, 20, 30])
    [] [] 0 (by decide)
  exact ⟨by simpa using (h.1 2).1, h.2 (by decide)⟩

/-- C8: word_break returns the byte offset just past the last occurrence of
any of the delimiters space (32), colon (58) or period (46), and 0 when the
ln contains none of them. -/
theorem word_break_last_delim (ln : List Nat) :
    ((∀ b ∈ ln, ([32, 58, 46] : List Nat).contains b = false) →
      word_break ln = 0) ∧
    (∀ j b, ln[j]? = some b → ([32, 58, 46] : List Nat).contains b = true →
      (∀ k c, j < k → ln[k]? = some c →
        ([32, 58, 46] : List Nat).contains c = false) →
      word_break ln = j + 1) := by
  constructor
  · intro hnone
    unfold word_break word_break_start
    rw [List.findIdx?_eq_none_iff.mpr]
    intro x hx
    exact hnone x (List.mem_reverse.mp hx)
  · intro j b hj hb hafter
    obtain ⟨hjlen, hjget⟩ := List.getElem?_eq_some_iff.mp hj
    unfold word_break word_break_start
    have hidx : ln.length - 1 - (ln.length - 1 - j) = j := by omega
    have hfind : ln.reverse.findIdx? (fun x => ([32, 58, 46] : List Nat).contains x)
        = some (ln.length - 1 - j) := by
      rw [List.findIdx?_eq_some_iff_getElem]
      refine ⟨by simp; omega, ?_, ?_⟩
      · simp only [List.getElem_reverse, hidx, hjget, hb]
      · intro k hk
        have hklen : ln.length - 1 - k < ln.length := by omega
        have hgt : j < ln.length - 1 - k := by
          have : k < ln.reverse.length := by simp; omega
          omega
        simp only [List.getElem_reverse]
        have hc : ([32, 58, 46] : List Nat).contains (ln.get ⟨ln.length - 1 - k, hklen⟩)
            = false :=
          hafter (ln.length - 1 - k) (ln.get ⟨ln.length - 1 - k, hklen⟩) hgt
            (List.getElem?_eq_some_iff.mpr ⟨hklen, rfl⟩)
        simpa [List.get_eq_getElem] using hc
    rw [hfind]
    show ln.length - (ln.length - 1 - j) = j + 1
    omega

/-- C8 witness: "ab" has no delimiter so word_break is 0, and "a.b" breaks
just past the period at offset 2. -/
theorem word_break_last_delim_witness :
    word_break [97, 98] = 0 ∧ word_break [97, 46, 98] = 2 := by
  refine ⟨(word_break_last_delim [97, 98]).1 (by decide),
    (word_break_last_delim [97, 46, 98]).2 1 46 (by decide) (by decide) ?_⟩
  intro k c hk hc
  have h23 : k = 2 ∨ 3 ≤ k := by omega
  rcases h23 with h2 | h3
  · subst h2
    simp only [List.getElem?_cons_succ, List.getElem?_cons_zero, Option.some.injEq] at hc
    subst hc
    decide
  · rw [List.getElem?_eq_none (by simpa using h3)] at hc
    exact absurd hc (by simp)
